import Mathlib

/-!
Verification of the SmoothScope waveform visualizer core
(`Source/PluginEditor.h`, `Source/PluginEditor.cpp`, `Source/PluginProcessor.cpp`).

Float samples and zoom factors are modelled as exact rationals (`ℚ`);
machine `int` indices are modelled as `Int`/`Nat` with explicit modular
arithmetic.  Each definition mirrors one function or code region of the
source, noted in its doc comment.
-/

namespace SmoothScope

/-- Overview-tier entry: a `(min, max)` pair per decimation window
(the `MinMax` struct stored in `overviewBuffer`). -/
structure MinMax where
  min : ℚ
  max : ℚ
deriving DecidableEq, Repr

/-- `PluginEditor.h` line 24: `static constexpr int historySize = 1048576;`. -/
def historySize : Nat := 1048576

/-- `PluginEditor.h` line 31: `static constexpr int decimationFactor = 64;`. -/
def decimationFactor : Nat := 64

/-- `PluginEditor.h` line 32: `static constexpr int overviewSize = historySize / decimationFactor;`. -/
def overviewSize : Nat := historySize / decimationFactor

/-- `PluginEditor.h` line 45: `const float minZoomX = 0.0001f;`. -/
def minZoomX : ℚ := 0.0001

/-- `PluginEditor.h` line 46: `const float maxZoomX = 50.0f;`. -/
def maxZoomX : ℚ := 50

/-- `PluginEditor.h` line 47: `const float minZoomY = 0.5f;`. -/
def minZoomY : ℚ := 0.5

/-- `PluginEditor.h` line 48: `const float maxZoomY = 10.0f;`. -/
def maxZoomY : ℚ := 10

/-- JUCE `jlimit(lowerLimit, upperLimit, value)`:
`value < lower ? lower : (upper < value ? upper : value)`. -/
def jlimit (lo hi v : ℚ) : ℚ :=
  if v < lo then lo else if hi < v then hi else v

/-- `PluginEditor.h` line 56, the first wrap loop of `getSample`:
`while (idx < 0) idx += size;`. -/
def wrapUp (size : Nat) (idx : Int) : Int :=
  if _h : 0 < size ∧ idx < 0 then wrapUp size (idx + size) else idx
termination_by (-idx).toNat
decreasing_by
  omega

/-- `PluginEditor.h` line 57, the second wrap loop of `getSample`:
`while (idx >= size) idx -= size;`. -/
def wrapDown (size : Nat) (idx : Int) : Int :=
  if _h : 0 < size ∧ (size : Int) ≤ idx then wrapDown size (idx - size) else idx
termination_by idx.toNat
decreasing_by
  omega

/-- The full index computation of `getSample` (`PluginEditor.h` lines 53-57):
`idx = writeIndex - 1 - samplesAgo`, then both wrap loops. -/
def wrapIndex (size : Nat) (writeIndex samplesAgo : Int) : Int :=
  wrapDown size (wrapUp size (writeIndex - 1 - samplesAgo))

/-- `PluginEditor.h` lines 51-59: `getSample(buffer, writeIndex, samplesAgo)`
returns `buffer[idx]` for the wrapped index.  (The `getD` default is never
used when the buffer is nonempty, see `wrapIndex_eq_emod`.) -/
def getSample (buffer : List ℚ) (writeIndex samplesAgo : Int) : ℚ :=
  buffer.getD (wrapIndex buffer.length writeIndex samplesAgo).toNat 0

theorem wrapUp_emod (size : Nat) (idx : Int) :
    wrapUp size idx % (size : Int) = idx % (size : Int) := by
  rw [wrapUp]
  split
  next h =>
    rw [wrapUp_emod size (idx + size)]
    have hx1 : idx + (size : Int) = idx + 1 * size := by ring
    rw [hx1, Int.add_mul_emod_self]
  next h => rfl
termination_by (-idx).toNat
decreasing_by
  omega

theorem wrapUp_nonneg (size : Nat) (h : 0 < size) (idx : Int) :
    0 ≤ wrapUp size idx := by
  rw [wrapUp]
  split
  next h' => exact wrapUp_nonneg size h (idx + size)
  next h' => omega
termination_by (-idx).toNat
decreasing_by
  omega

theorem wrapDown_emod (size : Nat) (idx : Int) :
    wrapDown size idx % (size : Int) = idx % (size : Int) := by
  rw [wrapDown]
  split
  next h =>
    rw [wrapDown_emod size (idx - size)]
    have hx1 : idx - (size : Int) = idx + (-1) * size := by ring
    rw [hx1, Int.add_mul_emod_self]
  next h => rfl
termination_by idx.toNat
decreasing_by
  omega

theorem wrapDown_lt (size : Nat) (h : 0 < size) (idx : Int) :
    wrapDown size idx < size := by
  rw [wrapDown]
  split
  next h' => exact wrapDown_lt size h (idx - size)
  next h' => omega
termination_by idx.toNat
decreasing_by
  omega

theorem wrapDown_nonneg (size : Nat) (idx : Int) (h : 0 ≤ idx) :
    0 ≤ wrapDown size idx := by
  rw [wrapDown]
  split
  next h' => exact wrapDown_nonneg size (idx - size) (by omega)
  next h' => exact h
termination_by idx.toNat
decreasing_by
  omega

/-- The two wrap loops of `getSample` compute exactly the mathematical
modulus of `writeIndex - 1 - samplesAgo` into `[0, size)`. -/
theorem wrapIndex_eq_emod (size : Nat) (h : 0 < size) (writeIndex samplesAgo : Int) :
    wrapIndex size writeIndex samplesAgo =
      (writeIndex - 1 - samplesAgo) % (size : Int) := by
  have h1 : 0 ≤ wrapIndex size writeIndex samplesAgo :=
    wrapDown_nonneg _ _ (wrapUp_nonneg _ h _)
  have h2 : wrapIndex size writeIndex samplesAgo < size :=
    wrapDown_lt _ h _
  have h3 : wrapIndex size writeIndex samplesAgo % (size : Int) =
      (writeIndex - 1 - samplesAgo) % (size : Int) := by
    rw [wrapIndex, wrapDown_emod, wrapUp_emod]
  rw [← h3]
  exact (Int.emod_emod_of_dvd _ dvd_rfl).symm ▸ (Int.emod_eq_of_lt h1 h2).symm

theorem getSample_eq_emod (buffer : List ℚ) (h : 0 < buffer.length)
    (writeIndex samplesAgo : Int) :
    getSample buffer writeIndex samplesAgo =
      buffer.getD ((writeIndex - 1 - samplesAgo) % (buffer.length : Int)).toNat 0 := by
  rw [getSample, wrapIndex_eq_emod _ h]

theorem getD_set_self {α : Type} (l : List α) (m : Nat) (v d : α) (h : m < l.length) :
    (l.set m v).getD m d = v := by
  rw [List.getD_eq_getElem?_getD, List.getElem?_set_self h]
  rfl

theorem getD_set_ne {α : Type} (l : List α) (m k : Nat) (v d : α) (h : m ≠ k) :
    (l.set m v).getD k d = l.getD k d := by
  rw [List.getD_eq_getElem?_getD, List.getElem?_set_ne h, ← List.getD_eq_getElem?_getD]

theorem getD_append_left {α : Type} (l l' : List α) (i : Nat) (d : α) (h : i < l.length) :
    (l ++ l').getD i d = l.getD i d := by
  rw [List.getD_eq_getElem?_getD, List.getElem?_append, if_pos h, ← List.getD_eq_getElem?_getD]

theorem getD_append_length {α : Type} (l : List α) (x d : α) :
    (l ++ [x]).getD l.length d = x := by
  rw [List.getD_eq_getElem?_getD, List.getElem?_append, if_neg (by omega)]
  simp

theorem getD_replicate {α : Type} (n j : Nat) (a d : α) (h : j < n) :
    (List.replicate n a).getD j d = a := by
  rw [List.getD_eq_getElem?_getD, List.getElem?_replicate, if_pos h]
  rfl

theorem getD_map_range {α : Type} (f : Nat → α) (n i : Nat) (d : α) (h : i < n) :
    ((List.range n).map f).getD i d = f i := by
  rw [List.getD_eq_getElem?_getD, List.getElem?_map, List.getElem?_range h]
  rfl

/-- The editor's history store: both circular tiers and the open decimation
accumulator (`PluginEditor.h` lines 24-38).  The numeric capacities
(`historySize`, `overviewSize`) enter through the operations' parameters. -/
structure HistoryState where
  historyBuffer : List ℚ
  historyWriteIndex : Nat
  overviewBuffer : List MinMax
  overviewWriteIndex : Nat
  currentOverviewMax : ℚ
  currentOverviewMin : ℚ
  currentOverviewCounter : Nat
deriving DecidableEq, Repr

/-- The constructor state (`PluginEditor.cpp` lines 7-8 plus the member
initializers in `PluginEditor.h`): both buffers zero-filled, all indices and
the accumulator counter 0, max accumulator 0.
The initial value of `currentOverviewMin` is not visible in the sources
(the shipped `PluginEditor.h` predates the min/max overview), so it is
modelled from the spec: a sentinel above any valid sample, matching the
in-loop reset value `10.0f` of `PluginEditor.cpp` line 53. -/
def initState (histSize ovSize : Nat) : HistoryState :=
  { historyBuffer := List.replicate histSize 0
    historyWriteIndex := 0
    overviewBuffer := List.replicate ovSize ⟨0, 0⟩
    overviewWriteIndex := 0
    currentOverviewMax := 0
    currentOverviewMin := 10
    currentOverviewCounter := 0 }

/-- One iteration of the drain loop's history update
(`PluginEditor.cpp` lines 38-55): write into the raw tier, advance its index
mod `histSize`, fold the sample into the min/max accumulator, and when the
counter reaches `D` commit the accumulator into the overview tier and reset
it (`max = 0.0f`, `min = 10.0f`, counter `0`). -/
def appendSample (histSize ovSize D : Nat) (st : HistoryState) (val : ℚ) : HistoryState :=
  let newHist := st.historyBuffer.set st.historyWriteIndex val
  let newHistIdx := (st.historyWriteIndex + 1) % histSize
  let newMax := if st.currentOverviewMax < val then val else st.currentOverviewMax
  let newMin := if val < st.currentOverviewMin then val else st.currentOverviewMin
  let newCounter := st.currentOverviewCounter + 1
  if D ≤ newCounter then
    { historyBuffer := newHist
      historyWriteIndex := newHistIdx
      overviewBuffer := st.overviewBuffer.set st.overviewWriteIndex ⟨newMin, newMax⟩
      overviewWriteIndex := (st.overviewWriteIndex + 1) % ovSize
      currentOverviewMax := 0
      currentOverviewMin := 10
      currentOverviewCounter := 0 }
  else
    { historyBuffer := newHist
      historyWriteIndex := newHistIdx
      overviewBuffer := st.overviewBuffer
      overviewWriteIndex := st.overviewWriteIndex
      currentOverviewMax := newMax
      currentOverviewMin := newMin
      currentOverviewCounter := newCounter }

/-- Draining a whole list of samples in arrival order
(the effect of repeated `HistoryStore.append`). -/
def appendAll (histSize ovSize D : Nat) (st : HistoryState) (inputs : List ℚ) : HistoryState :=
  inputs.foldl (appendSample histSize ovSize D) st

theorem appendSample_historyBuffer (histSize ovSize D : Nat) (st : HistoryState) (val : ℚ) :
    (appendSample histSize ovSize D st val).historyBuffer =
      st.historyBuffer.set st.historyWriteIndex val := by
  rw [appendSample]
  split <;> rfl

theorem appendSample_historyWriteIndex (histSize ovSize D : Nat) (st : HistoryState) (val : ℚ) :
    (appendSample histSize ovSize D st val).historyWriteIndex =
      (st.historyWriteIndex + 1) % histSize := by
  rw [appendSample]
  split <;> rfl

/-- The running-max accumulator folded over a sample list
(`if (val > currentOverviewMax) currentOverviewMax = val;`). -/
def accMax (seed : ℚ) (l : List ℚ) : ℚ :=
  l.foldl (fun a v => if a < v then v else a) seed

/-- The running-min accumulator folded over a sample list
(`if (val < currentOverviewMin) currentOverviewMin = val;`). -/
def accMin (seed : ℚ) (l : List ℚ) : ℚ :=
  l.foldl (fun a v => if v < a then v else a) seed

theorem accMax_append (seed : ℚ) (l : List ℚ) (x : ℚ) :
    accMax seed (l ++ [x]) = if accMax seed l < x then x else accMax seed l := by
  simp [accMax, List.foldl_append]

theorem accMin_append (seed : ℚ) (l : List ℚ) (x : ℚ) :
    accMin seed (l ++ [x]) = if x < accMin seed l then x else accMin seed l := by
  simp [accMin, List.foldl_append]

theorem le_accMax_seed (seed : ℚ) (l : List ℚ) : seed ≤ accMax seed l := by
  induction l generalizing seed with
  | nil => exact le_refl seed
  | cons a t ih =>
    have h1 : seed ≤ if seed < a then a else seed := by
      split <;> simp_all [le_of_lt]
    exact le_trans h1 (ih _)

theorem le_accMax_mem (seed x : ℚ) (l : List ℚ) (h : x ∈ l) : x ≤ accMax seed l := by
  induction l generalizing seed with
  | nil => cases h
  | cons a t ih =>
    rcases List.mem_cons.mp h with rfl | hx
    · have h1 : x ≤ if seed < x then x else seed := by
        split <;> simp_all [le_of_not_lt]
      exact le_trans h1 (le_accMax_seed _ t)
    · exact ih _ hx

theorem accMax_eq_seed_or_mem (seed : ℚ) (l : List ℚ) :
    accMax seed l = seed ∨ accMax seed l ∈ l := by
  induction l generalizing seed with
  | nil => exact Or.inl rfl
  | cons a t ih =>
    have hstep : accMax seed (a :: t) = accMax (if seed < a then a else seed) t := rfl
    rcases ih (if seed < a then a else seed) with heq | hmem
    · rw [hstep, heq]
      split
      · exact Or.inr (List.mem_cons_self a t)
      · exact Or.inl rfl
    · rw [hstep]
      exact Or.inr (List.mem_cons_of_mem a hmem)

theorem accMin_le_seed (seed : ℚ) (l : List ℚ) : accMin seed l ≤ seed := by
  induction l generalizing seed with
  | nil => exact le_refl seed
  | cons a t ih =>
    have h1 : (if a < seed then a else seed) ≤ seed := by
      split <;> simp_all [le_of_lt]
    exact le_trans (ih _) h1

theorem accMin_le_mem (seed x : ℚ) (l : List ℚ) (h : x ∈ l) : accMin seed l ≤ x := by
  induction l generalizing seed with
  | nil => cases h
  | cons a t ih =>
    rcases List.mem_cons.mp h with rfl | hx
    · have h1 : (if x < seed then x else seed) ≤ x := by
        split <;> simp_all [le_of_not_lt]
      exact le_trans (accMin_le_seed _ t) h1
    · exact ih _ hx

theorem accMin_eq_seed_or_mem (seed : ℚ) (l : List ℚ) :
    accMin seed l = seed ∨ accMin seed l ∈ l := by
  induction l generalizing seed with
  | nil => exact Or.inl rfl
  | cons a t ih =>
    have hstep : accMin seed (a :: t) = accMin (if a < seed then a else seed) t := rfl
    rcases ih (if a < seed then a else seed) with heq | hmem
    · rw [hstep, heq]
      split
      · exact Or.inr (List.mem_cons_self a t)
      · exact Or.inl rfl
    · rw [hstep]
      exact Or.inr (List.mem_cons_of_mem a hmem)

theorem appendSample_of_commit (histSize ovSize D : Nat) (st : HistoryState) (val : ℚ)
    (h : D ≤ st.currentOverviewCounter + 1) :
    appendSample histSize ovSize D st val =
      { historyBuffer := st.historyBuffer.set st.historyWriteIndex val
        historyWriteIndex := (st.historyWriteIndex + 1) % histSize
        overviewBuffer := st.overviewBuffer.set st.overviewWriteIndex
          ⟨if val < st.currentOverviewMin then val else st.currentOverviewMin,
           if st.currentOverviewMax < val then val else st.currentOverviewMax⟩
        overviewWriteIndex := (st.overviewWriteIndex + 1) % ovSize
        currentOverviewMax := 0
        currentOverviewMin := 10
        currentOverviewCounter := 0 } := by
  simp only [appendSample]
  rw [if_pos h]

theorem appendSample_of_no_commit (histSize ovSize D : Nat) (st : HistoryState) (val : ℚ)
    (h : ¬ D ≤ st.currentOverviewCounter + 1) :
    appendSample histSize ovSize D st val =
      { historyBuffer := st.historyBuffer.set st.historyWriteIndex val
        historyWriteIndex := (st.historyWriteIndex + 1) % histSize
        overviewBuffer := st.overviewBuffer
        overviewWriteIndex := st.overviewWriteIndex
        currentOverviewMax := if st.currentOverviewMax < val then val else st.currentOverviewMax
        currentOverviewMin := if val < st.currentOverviewMin then val else st.currentOverviewMin
        currentOverviewCounter := st.currentOverviewCounter + 1 } := by
  simp only [appendSample]
  rw [if_neg h]

theorem succ_mod_div_of_commit (n D : Nat) (hD : 0 < D) (h : n % D + 1 = D) :
    (n + 1) % D = 0 ∧ (n + 1) / D = n / D + 1 := by
  have e := Nat.div_add_mod n D
  have h1 : D * (n / D + 1) = D * (n / D) + D := by ring
  have h0 : n + 1 = D * (n / D + 1) := by omega
  constructor
  · rw [h0]
    exact Nat.mul_mod_right D _
  · rw [h0]
    exact Nat.mul_div_cancel_left _ hD

theorem succ_mod_div_of_no_commit (n D : Nat) (hD : 0 < D) (h : n % D + 1 < D) :
    (n + 1) % D = n % D + 1 ∧ (n + 1) / D = n / D := by
  have e := Nat.div_add_mod n D
  have h0 : n + 1 = (n % D + 1) + D * (n / D) := by omega
  constructor
  · rw [h0, Nat.add_mul_mod_self_left, Nat.mod_eq_of_lt h]
  · rw [h0, Nat.add_mul_div_left _ _ hD, Nat.div_eq_of_lt h, Nat.zero_add]

theorem mod_ne_of_between (S i n : Nat) (h1 : i < n) (h2 : n < i + S) :
    i % S ≠ n % S := by
  intro heq
  have hdvd : S ∣ n - i := (Nat.modEq_iff_dvd' (le_of_lt h1)).mp heq
  have := Nat.le_of_dvd (by omega) hdvd
  omega

/-- The full induction invariant for a run of `appendAll` from `initState`:
exact values of every index, of the open accumulator, of every committed
overview entry (when the overview tier has not wrapped), and of every raw
sample still retained. -/
structure RunInv (histS ovS D : Nat) (inputs : List ℚ) (st : HistoryState) : Prop where
  histLen : st.historyBuffer.length = histS
  ovLen : st.overviewBuffer.length = ovS
  histIdx : st.historyWriteIndex = inputs.length % histS
  ovIdx : st.overviewWriteIndex = inputs.length / D % ovS
  counter : st.currentOverviewCounter = inputs.length % D
  accMaxEq : st.currentOverviewMax = accMax 0 (inputs.drop (D * (inputs.length / D)))
  accMinEq : st.currentOverviewMin = accMin 10 (inputs.drop (D * (inputs.length / D)))
  committed : ∀ k, k < inputs.length / D → inputs.length / D ≤ ovS →
    st.overviewBuffer.getD k ⟨0, 0⟩ =
      ⟨accMin 10 ((inputs.drop (D * k)).take D), accMax 0 ((inputs.drop (D * k)).take D)⟩
  uncommitted : ∀ j, inputs.length / D ≤ j → j < ovS →
    st.overviewBuffer.getD j ⟨0, 0⟩ = ⟨0, 0⟩
  rawContents : ∀ i, i < inputs.length → inputs.length ≤ i + histS →
    st.historyBuffer.getD (i % histS) 0 = inputs.getD i 0

theorem runInv_holds (histS ovS D : Nat) (hH : 0 < histS) (hO : 0 < ovS) (hD : 0 < D)
    (inputs : List ℚ) :
    RunInv histS ovS D inputs (appendAll histS ovS D (initState histS ovS) inputs) := by
  induction inputs using List.reverseRecOn with
  | nil =>
    refine ⟨?_, ?_, ?_, ?_, ?_, ?_, ?_, ?_, ?_, ?_⟩
    · simp [appendAll, initState]
    · simp [appendAll, initState]
    · simp [appendAll, initState]
    · simp [appendAll, initState, Nat.zero_div]
    · simp [appendAll, initState]
    · simp [appendAll, initState, accMax]
    · simp [appendAll, initState, accMin]
    · intro k hk _
      simp [Nat.zero_div] at hk
    · intro j _ hj
      simpa [appendAll, initState] using getD_replicate ovS j (⟨0, 0⟩ : MinMax) ⟨0, 0⟩ hj
    · intro i hi _
      simp at hi
  | append_singleton l x ih =>
    have happ : appendAll histS ovS D (initState histS ovS) (l ++ [x]) =
        appendSample histS ovS D (appendAll histS ovS D (initState histS ovS) l) x := by
      simp [appendAll, List.foldl_append]
    set S := appendAll histS ovS D (initState histS ovS) l with hS
    have hlen : (l ++ [x]).length = l.length + 1 := by simp
    have hrlt : l.length % D < D := Nat.mod_lt _ hD
    have hDq : D * (l.length / D) ≤ l.length := Nat.mul_div_le l.length D
    -- the history tier evolves the same way whether or not a commit happens
    have rawStep : ∀ i, i < l.length + 1 → l.length + 1 ≤ i + histS →
        (S.historyBuffer.set S.historyWriteIndex x).getD (i % histS) 0 =
          (l ++ [x]).getD i 0 := by
      intro i hi hiS
      rw [ih.histIdx]
      rcases Nat.lt_succ_iff_lt_or_eq.mp hi with hilt | hieq
      · have hne : i % histS ≠ l.length % histS :=
          mod_ne_of_between histS i l.length hilt (by omega)
        rw [getD_set_ne _ _ _ _ _ (fun hh => hne hh.symm)]
        rw [getD_append_left _ _ _ _ (by omega)]
        exact ih.rawContents i hilt (by omega)
      · subst hieq
        rw [getD_set_self _ _ _ _ (by rw [ih.histLen]; exact Nat.mod_lt _ hH)]
        rw [getD_append_length]
    have hcnt := ih.counter
    by_cases hc : D ≤ S.currentOverviewCounter + 1
    · -- commit step: the counter reaches D
      have hr : l.length % D + 1 = D := by omega
      obtain ⟨hmod, hdiv⟩ := succ_mod_div_of_commit l.length D hD hr
      rw [happ]
      rw [appendSample_of_commit _ _ _ _ _ hc]
      have hwin : (l ++ [x]).drop (D * (l.length / D)) = l.drop (D * (l.length / D)) ++ [x] :=
        List.drop_append_of_le_length hDq
      have hwinlen : (l.drop (D * (l.length / D))).length = l.length % D := by
        rw [List.length_drop]
        have := Nat.div_add_mod l.length D
        omega
      have hfull : ((l ++ [x]).drop (D * (l.length / D))).take D =
          (l ++ [x]).drop (D * (l.length / D)) := by
        apply List.take_of_length_le
        rw [hwin, List.length_append, hwinlen]
        simp only [List.length_singleton]
        omega
      have hcommitval :
          (⟨if x < S.currentOverviewMin then x else S.currentOverviewMin,
            if S.currentOverviewMax < x then x else S.currentOverviewMax⟩ : MinMax) =
          ⟨accMin 10 (((l ++ [x]).drop (D * (l.length / D))).take D),
           accMax 0 (((l ++ [x]).drop (D * (l.length / D))).take D)⟩ := by
        rw [hfull, hwin, accMin_append, accMax_append, ih.accMinEq, ih.accMaxEq]
      have hdropnil : (l ++ [x]).drop (D * (l.length / D + 1)) = [] := by
        apply List.drop_eq_nil_of_le
        rw [List.length_append]
        have h1 : D * (l.length / D + 1) = D * (l.length / D) + D := by ring
        have := Nat.div_add_mod l.length D
        simp only [List.length_singleton]
        omega
      refine ⟨?_, ?_, ?_, ?_, ?_, ?_, ?_, ?_, ?_, ?_⟩
      · simpa [List.length_set] using ih.histLen
      · simpa [List.length_set] using ih.ovLen
      · rw [hlen, ih.histIdx, Nat.mod_add_mod]
      · rw [hlen, hdiv, ih.ovIdx, Nat.mod_add_mod]
      · rw [hlen, hmod]
      · rw [hlen, hdiv, hdropnil]
        rfl
      · rw [hlen, hdiv, hdropnil]
        rfl
      · -- committed entries: the new one at q, older ones untouched
        intro k hk hov
        rw [hlen, hdiv] at hk hov
        have hqlt : l.length / D < ovS := by omega
        have hwidx : S.overviewWriteIndex = l.length / D := by
          rw [ih.ovIdx, Nat.mod_eq_of_lt hqlt]
        rcases Nat.lt_succ_iff_lt_or_eq.mp hk with hklt | hkeq
        · rw [hwidx, getD_set_ne _ _ _ _ _ (by omega)]
          have hold := ih.committed k hklt (by omega)
          rw [hold]
          have hkD : D * k + D ≤ l.length := by
            have h1 : D * (k + 1) ≤ D * (l.length / D) := Nat.mul_le_mul_left D hklt
            have h2 : D * (k + 1) = D * k + D := by ring
            omega
          have htakek : ((l ++ [x]).drop (D * k)).take D = (l.drop (D * k)).take D := by
            rw [List.drop_append_of_le_length (by omega)]
            apply List.take_append_of_le_length
            rw [List.length_drop]
            omega
          rw [htakek]
        · subst hkeq
          rw [hwidx, getD_set_self _ _ _ _ (by rw [ih.ovLen]; exact hqlt)]
          exact hcommitval
      · -- entries at or beyond the new commit count are still untouched
        intro j hj hjlt
        rw [hlen, hdiv] at hj
        have hwidx : S.overviewWriteIndex = l.length / D := by
          rw [ih.ovIdx, Nat.mod_eq_of_lt (by omega)]
        rw [hwidx, getD_set_ne _ _ _ _ _ (by omega)]
        exact ih.uncommitted j (by omega) hjlt
      · intro i hi hiS
        rw [hlen] at hi hiS
        exact rawStep i hi hiS
    · -- no-commit step: the counter has not reached D yet
      have hr : l.length % D + 1 < D := by omega
      obtain ⟨hmod, hdiv⟩ := succ_mod_div_of_no_commit l.length D hD hr
      rw [happ]
      rw [appendSample_of_no_commit _ _ _ _ _ hc]
      have hwin : (l ++ [x]).drop (D * (l.length / D)) = l.drop (D * (l.length / D)) ++ [x] :=
        List.drop_append_of_le_length hDq
      refine ⟨?_, ?_, ?_, ?_, ?_, ?_, ?_, ?_, ?_, ?_⟩
      · simpa [List.length_set] using ih.histLen
      · exact ih.ovLen
      · rw [hlen, ih.histIdx, Nat.mod_add_mod]
      · rw [hlen, hdiv]
        exact ih.ovIdx
      · rw [hlen, hmod, ih.counter]
      · rw [hlen, hdiv, hwin, accMax_append, ih.accMaxEq]
      · rw [hlen, hdiv, hwin, accMin_append, ih.accMinEq]
      · intro k hk hov
        rw [hlen, hdiv] at hk hov
        have hold := ih.committed k hk hov
        rw [hold]
        have hkD : D * k + D ≤ l.length := by
          have h1 : D * (k + 1) ≤ D * (l.length / D) := Nat.mul_le_mul_left D hk
          have h2 : D * (k + 1) = D * k + D := by ring
          omega
        have htakek : ((l ++ [x]).drop (D * k)).take D = (l.drop (D * k)).take D := by
          rw [List.drop_append_of_le_length (by omega)]
          apply List.take_append_of_le_length
          rw [List.length_drop]
          omega
        rw [htakek]
      · intro j hj hjlt
        rw [hlen, hdiv] at hj
        exact ih.uncommitted j hj hjlt
      · intro i hi hiS
        rw [hlen] at hi hiS
        exact rawStep i hi hiS

/-- `getSample` queried with a natural write index `n % length` and a natural
`samplesAgo` within the live window reads the physical slot `(n - 1 - a) % length`. -/
theorem getSample_writeIdx_mod (buffer : List ℚ) (h : 0 < buffer.length) (n a : Nat)
    (ha : a + 1 ≤ n) :
    getSample buffer ((n % buffer.length : Nat) : Int) (a : Int) =
      buffer.getD ((n - 1 - a) % buffer.length) 0 := by
  rw [getSample_eq_emod buffer h]
  congr 1
  rw [Int.natCast_mod]
  have k1 : (n : Int) % (buffer.length : Int) - 1 - (a : Int) =
      (n : Int) % (buffer.length : Int) - (1 + a) := by ring
  have k2 : (n : Int) - 1 - (a : Int) = (n : Int) - (1 + a) := by ring
  rw [k1, Int.sub_emod, Int.emod_emod_of_dvd _ dvd_rfl, ← Int.sub_emod, ← k2]
  have k3 : (n : Int) - 1 - (a : Int) = ((n - 1 - a : Nat) : Int) := by omega
  rw [k3, ← Int.natCast_mod, Int.toNat_natCast]

/-- The producer-consumer queue state (`PluginProcessor.h`'s `fifoBuffer`,
`fifoReadIndex`, `fifoWriteIndex`, seen through its uses in
`PluginEditor.cpp` lines 28-36). -/
structure FifoState where
  fifoBuffer : List ℚ
  fifoReadIndex : Nat
  fifoWriteIndex : Nat
deriving DecidableEq, Repr

/-- The drain loop of `timerCallback` (`PluginEditor.cpp` lines 26-58) with an
explicit iteration bound: stop when `currentRead == currentWrite`, otherwise
pop `fifoBuffer[currentRead]`, advance the read index mod `fifoSize`, append
the sample to the history store, and record it as drained.  The C++ loop is
unbounded; `fifoSize` iterations are enough for any in-range index pair, and
`drainN_spec` proves the stop condition is indeed reached within the bound. -/
def drainN (fifoSize histSize ovSize D : Nat) :
    Nat → FifoState → HistoryState → FifoState × HistoryState × List ℚ
  | 0, f, st => (f, st, [])
  | fuel + 1, f, st =>
    if f.fifoReadIndex = f.fifoWriteIndex then (f, st, [])
    else
      let val := f.fifoBuffer.getD f.fifoReadIndex 0
      let r := drainN fifoSize histSize ovSize D fuel
        { f with fifoReadIndex := (f.fifoReadIndex + 1) % fifoSize }
        (appendSample histSize ovSize D st val)
      (r.1, r.2.1, val :: r.2.2)

/-- `timerCallback` (`PluginEditor.cpp` lines 22-62): drain the queue, and
return `newData` — `repaint()` is requested iff some sample was drained. -/
def timerCallback (fifoSize histSize ovSize D : Nat) (f : FifoState) (st : HistoryState) :
    FifoState × HistoryState × Bool :=
  let r := drainN fifoSize histSize ovSize D fifoSize f st
  (r.1, r.2.1, ! r.2.2.isEmpty)

/-- Number of queued samples between the read and write cursors of a ring of
capacity `fifoSize` (a specification quantity, not code). -/
def pendingCount (fifoSize readIndex writeIndex : Nat) : Nat :=
  if readIndex ≤ writeIndex then writeIndex - readIndex
  else fifoSize + writeIndex - readIndex

/-- The FIFO-ordered queue contents, oldest first (a specification quantity). -/
def queueContents (fifoSize : Nat) (f : FifoState) : List ℚ :=
  (List.range (pendingCount fifoSize f.fifoReadIndex f.fifoWriteIndex)).map
    (fun i => f.fifoBuffer.getD ((f.fifoReadIndex + i) % fifoSize) 0)

theorem pendingCount_eq_zero_iff (fifoSize r w : Nat) (hr : r < fifoSize) (hw : w < fifoSize) :
    pendingCount fifoSize r w = 0 ↔ r = w := by
  unfold pendingCount
  split <;> omega

theorem pendingCount_lt (fifoSize r w : Nat) (hr : r < fifoSize) (hw : w < fifoSize) :
    pendingCount fifoSize r w < fifoSize := by
  unfold pendingCount
  split <;> omega

theorem pendingCount_step (fifoSize r w : Nat) (hf : 0 < fifoSize)
    (hr : r < fifoSize) (hw : w < fifoSize) (hne : r ≠ w) :
    pendingCount fifoSize ((r + 1) % fifoSize) w = pendingCount fifoSize r w - 1 ∧
      0 < pendingCount fifoSize r w := by
  have hmod : (r + 1) % fifoSize = if r + 1 = fifoSize then 0 else r + 1 := by
    split
    next hh => rw [hh, Nat.mod_self]
    next hh => exact Nat.mod_eq_of_lt (by omega)
  rw [hmod]
  unfold pendingCount
  split_ifs <;> omega

theorem drainN_spec (fifoSize histSize ovSize D : Nat) (hf : 0 < fifoSize) :
    ∀ (fuel : Nat) (f : FifoState) (st : HistoryState),
      f.fifoReadIndex < fifoSize → f.fifoWriteIndex < fifoSize →
      pendingCount fifoSize f.fifoReadIndex f.fifoWriteIndex ≤ fuel →
      drainN fifoSize histSize ovSize D fuel f st =
        ({ f with fifoReadIndex := f.fifoWriteIndex },
         appendAll histSize ovSize D st (queueContents fifoSize f),
         queueContents fifoSize f) := by
  intro fuel
  induction fuel with
  | zero =>
    intro f st hr hw hp
    have h0 : pendingCount fifoSize f.fifoReadIndex f.fifoWriteIndex = 0 := Nat.le_zero.mp hp
    have he : f.fifoReadIndex = f.fifoWriteIndex :=
      (pendingCount_eq_zero_iff fifoSize _ _ hr hw).mp h0
    obtain ⟨fb, fr, fw⟩ := f
    simp only at he
    subst he
    simp [drainN, queueContents, appendAll, h0]
  | succ fuel ihf =>
    intro f st hr hw hp
    by_cases he : f.fifoReadIndex = f.fifoWriteIndex
    · have h0 : pendingCount fifoSize f.fifoReadIndex f.fifoWriteIndex = 0 :=
        (pendingCount_eq_zero_iff fifoSize _ _ hr hw).mpr he
      obtain ⟨fb, fr, fw⟩ := f
      simp only at he
      subst he
      simp [drainN, queueContents, appendAll, h0]
    · obtain ⟨hstep, hpos⟩ := pendingCount_step fifoSize _ _ hf hr hw he
      have hr2 : (f.fifoReadIndex + 1) % fifoSize < fifoSize := Nat.mod_lt _ hf
      have ih2 := ihf { f with fifoReadIndex := (f.fifoReadIndex + 1) % fifoSize }
        (appendSample histSize ovSize D st (f.fifoBuffer.getD f.fifoReadIndex 0))
        hr2 hw (by simp only [hstep]; omega)
      have hlist : queueContents fifoSize f =
          f.fifoBuffer.getD f.fifoReadIndex 0 ::
            queueContents fifoSize { f with fifoReadIndex := (f.fifoReadIndex + 1) % fifoSize } := by
        unfold queueContents
        simp only
        rw [hstep]
        have hpen : pendingCount fifoSize f.fifoReadIndex f.fifoWriteIndex =
            (pendingCount fifoSize f.fifoReadIndex f.fifoWriteIndex - 1) + 1 := by omega
        rw [hpen, List.range_succ_eq_map]
        simp only [List.map_cons, List.map_map]
        congr 1
        · rw [Nat.add_zero, Nat.mod_eq_of_lt hr]
        · apply List.map_congr_left
          intro i _
          simp only [Function.comp_apply, Nat.succ_eq_add_one]
          rw [Nat.mod_add_mod]
          congr 2
          omega
      rw [drainN, if_neg he]
      simp only
      rw [ih2, hlist]
      rfl

/-- The three rendering strategies of `paint` (`PluginEditor.cpp`). -/
inductive RenderMode where
  | raw
  | overview
  | mid
deriving DecidableEq, Repr

/-- The rendering-strategy selector of `paint` (`PluginEditor.cpp` lines 76-78,
also echoed by the mode label at lines 256-258):
`bool useOverview = (zoomX < 0.05f); if (zoomX >= 1.0f) {raw} else if (useOverview) {overview} else {mid}`. -/
def selectMode (zoomX : ℚ) : RenderMode :=
  if 1 ≤ zoomX then RenderMode.raw
  else if zoomX < 0.05 then RenderMode.overview
  else RenderMode.mid

/-- The viewport zoom state (`PluginEditor.h` lines 41-42). -/
structure ZoomState where
  zoomX : ℚ
  zoomY : ℚ
deriving DecidableEq, Repr

/-- The initial zoom state (`PluginEditor.h` lines 41-42):
`zoomX = 5.0f`, `zoomY = 1.0f`. -/
def initZoom : ZoomState :=
  { zoomX := 5, zoomY := 1 }

/-- The zoom update of `mouseWheelMove` (`PluginEditor.cpp` lines 264-284).
`modifier` is `event.mods.isCommandDown() || event.mods.isCtrlDown()`;
`deltaY` is `wheel.deltaY`.  With the modifier, `zoomY += deltaY * 1.0f`
clamped to `[minZoomY, maxZoomY]`; without it, `zoomX` is scaled by `1.1`
(scroll up) or `0.9` (scroll down) when `|deltaY| > 0`, then clamped to
`[minZoomX, maxZoomX]`. -/
def scrollZoom (z : ZoomState) (deltaY : ℚ) (modifier : Bool) : ZoomState :=
  if modifier then
    { z with zoomY := jlimit minZoomY maxZoomY (z.zoomY + deltaY * 1) }
  else
    let zx := if 0 < |deltaY| then z.zoomX * (if 0 < deltaY then 1.1 else 0.9) else z.zoomX
    { z with zoomX := jlimit minZoomX maxZoomX zx }

/-- A scroll gesture: wheel delta plus whether Command/Ctrl is held. -/
structure ScrollEvent where
  delta : ℚ
  modifier : Bool
deriving DecidableEq, Repr

/-- A sequence of scroll events applied in order. -/
def applyScrolls (z : ZoomState) (events : List ScrollEvent) : ZoomState :=
  events.foldl (fun s e => scrollZoom s e.delta e.modifier) z

/-- The whole editor state touched by the UI callbacks: history store plus
zoom state. -/
structure EditorState where
  hist : HistoryState
  zoom : ZoomState
deriving DecidableEq, Repr

/-- `mouseWheelMove` as a transition on the full editor state
(`PluginEditor.cpp` lines 264-284): it only rewrites the zoom fields. -/
def mouseWheelMove (ed : EditorState) (deltaY : ℚ) (modifier : Bool) : EditorState :=
  { ed with zoom := scrollZoom ed.zoom deltaY modifier }

theorem jlimit_mem (lo hi v : ℚ) (h : lo ≤ hi) :
    lo ≤ jlimit lo hi v ∧ jlimit lo hi v ≤ hi := by
  unfold jlimit
  split_ifs <;> constructor <;> linarith

/-- Zone 1 of `paint` (`PluginEditor.cpp` lines 78-108, entered when
`zoomX >= 1.0f`): one path vertex per raw sample, the `i`-th at
`x = w - i * zoomX`, `y = jlimit(0, h, midY - val * midY * 0.9f * zoomY)`
with `val = getSample(historyBuffer, historyWriteIndex, i)`;
`samplesToDraw = ceil(w / zoomX) + 2` clamped to the buffer size. -/
def zone1Vertices (hist : List ℚ) (writeIndex : Int) (w h zoomX zoomY : ℚ) :
    List (ℚ × ℚ) :=
  let midY := h / 2
  let samplesToDraw := min ((⌈w / zoomX⌉).toNat + 2) hist.length
  (List.range samplesToDraw).map fun (i : Nat) =>
    (w - (i : ℚ) * zoomX,
     jlimit 0 h (midY - getSample hist writeIndex (i : Int) * midY * 0.9 * zoomY))

theorem scrollZoom_preserves_bounds (z : ZoomState) (d : ℚ) (m : Bool)
    (hx1 : minZoomX ≤ z.zoomX) (hx2 : z.zoomX ≤ maxZoomX)
    (hy1 : minZoomY ≤ z.zoomY) (hy2 : z.zoomY ≤ maxZoomY) :
    minZoomX ≤ (scrollZoom z d m).zoomX ∧ (scrollZoom z d m).zoomX ≤ maxZoomX ∧
    minZoomY ≤ (scrollZoom z d m).zoomY ∧ (scrollZoom z d m).zoomY ≤ maxZoomY := by
  have hxy : minZoomX ≤ maxZoomX ∧ minZoomY ≤ maxZoomY := by
    unfold minZoomX maxZoomX minZoomY maxZoomY
    norm_num
  cases m with
  | true =>
    have hj := jlimit_mem minZoomY maxZoomY (z.zoomY + d * 1) hxy.2
    exact ⟨hx1, hx2, hj.1, hj.2⟩
  | false =>
    have hj := jlimit_mem minZoomX maxZoomX
      (if 0 < |d| then z.zoomX * (if 0 < d then 1.1 else 0.9) else z.zoomX) hxy.1
    exact ⟨hj.1, hj.2, hy1, hy2⟩

theorem applyScrolls_preserves_bounds (events : List ScrollEvent) :
    ∀ z : ZoomState,
      minZoomX ≤ z.zoomX → z.zoomX ≤ maxZoomX → minZoomY ≤ z.zoomY → z.zoomY ≤ maxZoomY →
      minZoomX ≤ (applyScrolls z events).zoomX ∧ (applyScrolls z events).zoomX ≤ maxZoomX ∧
      minZoomY ≤ (applyScrolls z events).zoomY ∧ (applyScrolls z events).zoomY ≤ maxZoomY := by
  induction events with
  | nil =>
    intro z h1 h2 h3 h4
    exact ⟨h1, h2, h3, h4⟩
  | cons e es ihe =>
    intro z h1 h2 h3 h4
    have hb := scrollZoom_preserves_bounds z e.delta e.modifier h1 h2 h3 h4
    exact ihe _ hb.1 hb.2.1 hb.2.2.1 hb.2.2.2

/-- Claim C1, counterexample: the selector does not switch at
`samplesPerPixel = decimationFactor`, i.e. at `zoomX = 1/64`.  At
`zoomX = 0.016`, which lies strictly above `1/64` (so the claim requires
peak/envelope (mid) mode), the code still chooses overview mode, because
its actual cut is `zoomX < 0.05f` (`PluginEditor.cpp` line 76). -/
theorem selectMode_not_at_decimation_threshold :
    (1 : ℚ) / 64 < 0.016 ∧ (0.016 : ℚ) < 1 ∧
    selectMode 0.016 = RenderMode.overview ∧ selectMode 0.016 ≠ RenderMode.mid := by
  have h : selectMode 0.016 = RenderMode.overview := by
    rw [selectMode, if_neg (by norm_num), if_pos (by norm_num)]
  refine ⟨by norm_num, by norm_num, h, ?_⟩
  rw [h]
  intro hh
  exact RenderMode.noConfusion hh

/-- Claim C1 (amended): the selector's actual boundaries are `zoomX >= 1`
for raw mode, `zoomX < 0.05` for overview mode (equivalently
`samplesPerPixel > 20`, not `samplesPerPixel >= decimationFactor = 64`), and
`0.05 <= zoomX < 1` for peak/envelope (mid) mode; the overview/mid switch
happens exactly at `zoomX = 0.05`. -/
theorem selectMode_boundaries (zx : ℚ) :
    (selectMode zx = RenderMode.raw ↔ 1 ≤ zx) ∧
    (selectMode zx = RenderMode.overview ↔ zx < 0.05) ∧
    (selectMode zx = RenderMode.mid ↔ 0.05 ≤ zx ∧ zx < 1) := by
  unfold selectMode
  split_ifs with h1 h2
  · exact ⟨⟨fun _ => h1, fun _ => rfl⟩,
      ⟨fun hh => absurd hh (by decide), fun hh => absurd hh (by norm_num; linarith)⟩,
      ⟨fun hh => absurd hh (by decide), fun hh => absurd hh.2 (by linarith)⟩⟩
  · exact ⟨⟨fun hh => absurd hh (by decide), fun hh => absurd hh h1⟩,
      ⟨fun _ => h2, fun _ => rfl⟩,
      ⟨fun hh => absurd hh (by decide), fun hh => absurd h2 (not_lt.mpr hh.1)⟩⟩
  · exact ⟨⟨fun hh => absurd hh (by decide), fun hh => absurd hh h1⟩,
      ⟨fun hh => absurd hh (by decide), fun hh => absurd hh h2⟩,
      ⟨fun _ => ⟨not_lt.mp h2, not_le.mp h1⟩, fun _ => rfl⟩⟩

/-- Claim C9: a scroll with Command/Ctrl held changes only `zoomY` and leaves
`zoomX` unchanged; a scroll without it changes only `zoomX` and leaves
`zoomY` unchanged; no scroll event touches the history store (raw buffer,
overview buffer, write indices, accumulators). -/
theorem mouseWheel_frame_effect (ed : EditorState) (d : ℚ) (m : Bool) :
    (mouseWheelMove ed d true).zoom.zoomX = ed.zoom.zoomX ∧
    (mouseWheelMove ed d false).zoom.zoomY = ed.zoom.zoomY ∧
    (mouseWheelMove ed d m).hist = ed.hist := by
  refine ⟨?_, ?_, rfl⟩
  · simp [mouseWheelMove, scrollZoom]
  · simp [mouseWheelMove, scrollZoom]

/-- Claim C6: from the initial viewport state, any sequence of scroll events
keeps `zoomX` in `[minZoomX, maxZoomX]` and `zoomY` in `[minZoomY, maxZoomY]`
(in particular `zoomX` stays strictly positive), and a scroll at a bound in
the same direction leaves the value pinned at the bound. -/
theorem zoom_clamped_and_pinned :
    (∀ events : List ScrollEvent,
      minZoomX ≤ (applyScrolls initZoom events).zoomX ∧
      (applyScrolls initZoom events).zoomX ≤ maxZoomX ∧
      minZoomY ≤ (applyScrolls initZoom events).zoomY ∧
      (applyScrolls initZoom events).zoomY ≤ maxZoomY) ∧
    (∀ zy d : ℚ, 0 < d → (scrollZoom ⟨maxZoomX, zy⟩ d false).zoomX = maxZoomX) ∧
    (∀ zy d : ℚ, d < 0 → (scrollZoom ⟨minZoomX, zy⟩ d false).zoomX = minZoomX) ∧
    (∀ zx d : ℚ, 0 ≤ d → (scrollZoom ⟨zx, maxZoomY⟩ d true).zoomY = maxZoomY) ∧
    (∀ zx d : ℚ, d ≤ 0 → (scrollZoom ⟨zx, minZoomY⟩ d true).zoomY = minZoomY) := by
  refine ⟨?_, ?_, ?_, ?_, ?_⟩
  · intro events
    apply applyScrolls_preserves_bounds events initZoom <;>
      norm_num [initZoom, minZoomX, maxZoomX, minZoomY, maxZoomY]
  · intro zy d hd
    have habs : 0 < |d| := abs_pos.mpr (ne_of_gt hd)
    have hstep : (scrollZoom ⟨maxZoomX, zy⟩ d false).zoomX =
        jlimit minZoomX maxZoomX (maxZoomX * 1.1) := by
      simp [scrollZoom, habs, hd]
    rw [hstep]
    unfold jlimit minZoomX maxZoomX
    rw [if_neg (by norm_num), if_pos (by norm_num)]
  · intro zy d hd
    have habs : 0 < |d| := abs_pos.mpr (ne_of_lt hd)
    have hstep : (scrollZoom ⟨minZoomX, zy⟩ d false).zoomX =
        jlimit minZoomX maxZoomX (minZoomX * 0.9) := by
      simp [scrollZoom, habs, not_lt.mpr (le_of_lt hd)]
    rw [hstep]
    unfold jlimit minZoomX maxZoomX
    rw [if_pos (by norm_num)]
  · intro zx d hd
    have hstep : (scrollZoom ⟨zx, maxZoomY⟩ d true).zoomY =
        jlimit minZoomY maxZoomY (maxZoomY + d * 1) := by
      simp [scrollZoom]
    rw [hstep]
    unfold jlimit minZoomY maxZoomY
    rcases eq_or_lt_of_le hd with heq | hlt
    · rw [← heq]
      norm_num
    · rw [if_neg (by linarith), if_pos (by linarith)]
  · intro zx d hd
    have hstep : (scrollZoom ⟨zx, minZoomY⟩ d true).zoomY =
        jlimit minZoomY maxZoomY (minZoomY + d * 1) := by
      simp [scrollZoom]
    rw [hstep]
    unfold jlimit minZoomY maxZoomY
    rcases eq_or_lt_of_le hd with heq | hlt
    · rw [heq]
      norm_num
    · rw [if_pos (by linarith)]

/-- Witness for C6 at concrete inputs: one scroll event from the initial
state stays in bounds, and each pinned-at-bound case holds at a concrete
delta. -/
theorem zoom_clamped_and_pinned_witness :
    (minZoomX ≤ (applyScrolls initZoom [⟨1, false⟩]).zoomX ∧
      (applyScrolls initZoom [⟨1, false⟩]).zoomX ≤ maxZoomX ∧
      minZoomY ≤ (applyScrolls initZoom [⟨1, false⟩]).zoomY ∧
      (applyScrolls initZoom [⟨1, false⟩]).zoomY ≤ maxZoomY) ∧
    (scrollZoom ⟨maxZoomX, 1⟩ 1 false).zoomX = maxZoomX ∧
    (scrollZoom ⟨minZoomX, 1⟩ (-1) false).zoomX = minZoomX ∧
    (scrollZoom ⟨1, maxZoomY⟩ 1 true).zoomY = maxZoomY ∧
    (scrollZoom ⟨1, minZoomY⟩ (-1) true).zoomY = minZoomY :=
  ⟨zoom_clamped_and_pinned.1 [⟨1, false⟩],
   zoom_clamped_and_pinned.2.1 1 1 (by norm_num),
   zoom_clamped_and_pinned.2.2.1 1 (-1) (by norm_num),
   zoom_clamped_and_pinned.2.2.2.1 1 1 (by norm_num),
   zoom_clamped_and_pinned.2.2.2.2 1 (-1) (by norm_num)⟩

/-- Claim C8: `getSample` is total and memory-safe — for any nonempty buffer,
in-range write index and nonnegative `samplesAgo` the wrapped index equals
`(writeIndex - 1 - samplesAgo) mod size`, always lies in `[0, size)`, and the
returned value is the buffer entry at that index. -/
theorem getSample_total_in_bounds (buffer : List ℚ) (writeIndex samplesAgo : Int)
    (hs : 0 < buffer.length) (hw0 : 0 ≤ writeIndex)
    (hw1 : writeIndex < (buffer.length : Int)) (ha : 0 ≤ samplesAgo) :
    0 ≤ wrapIndex buffer.length writeIndex samplesAgo ∧
    wrapIndex buffer.length writeIndex samplesAgo < (buffer.length : Int) ∧
    wrapIndex buffer.length writeIndex samplesAgo =
      (writeIndex - 1 - samplesAgo) % (buffer.length : Int) ∧
    getSample buffer writeIndex samplesAgo =
      buffer.getD ((writeIndex - 1 - samplesAgo) % (buffer.length : Int)).toNat 0 :=
  ⟨wrapDown_nonneg _ _ (wrapUp_nonneg _ hs _), wrapDown_lt _ hs _,
   wrapIndex_eq_emod _ hs _ _, getSample_eq_emod _ hs _ _⟩

/-- Witness for C8 at a concrete query: buffer `[1, 2, 3]`, write index `2`,
`samplesAgo = 5` (beyond the buffer size). -/
theorem getSample_total_in_bounds_witness :
    0 < ([1, 2, 3] : List ℚ).length ∧ (0 : Int) ≤ 2 ∧
    (2 : Int) < (([1, 2, 3] : List ℚ).length : Int) ∧ (0 : Int) ≤ 5 ∧
    (0 ≤ wrapIndex ([1, 2, 3] : List ℚ).length 2 5 ∧
     wrapIndex ([1, 2, 3] : List ℚ).length 2 5 < (([1, 2, 3] : List ℚ).length : Int) ∧
     wrapIndex ([1, 2, 3] : List ℚ).length 2 5 =
       ((2 : Int) - 1 - 5) % ((([1, 2, 3] : List ℚ).length : Nat) : Int) ∧
     getSample [1, 2, 3] 2 5 =
       ([1, 2, 3] : List ℚ).getD (((2 : Int) - 1 - 5) %
         ((([1, 2, 3] : List ℚ).length : Nat) : Int)).toNat 0) :=
  ⟨by simp, by norm_num, by simp, by norm_num,
   getSample_total_in_bounds [1, 2, 3] 2 5 (by simp) (by norm_num) (by simp) (by norm_num)⟩

/-- Claim C5, counterexample: a query with `samplesAgo = 4` on a buffer of
size 4 does not return a sentinel — it returns exactly the same value as the
query for the most recent sample (`samplesAgo = 0`), i.e. data from a
wrapped-around, more recent position. -/
theorem getSample_wraps_not_sentinel :
    getSample [1, 2, 3, 4] 0 4 = getSample [1, 2, 3, 4] 0 0 ∧
    getSample [1, 2, 3, 4] 0 4 = 4 := by
  have h4 : getSample ([1, 2, 3, 4] : List ℚ) 0 4 = 4 := by
    rw [getSample_eq_emod _ (by simp)]
    norm_num
    rfl
  have h0 : getSample ([1, 2, 3, 4] : List ℚ) 0 0 = 4 := by
    rw [getSample_eq_emod _ (by simp)]
    norm_num
    rfl
  exact ⟨h4.trans h0.symm, h4⟩

/-- Claim C5 (amended): for `samplesAgo` beyond the buffer size, `getSample`
does not clamp or return a sentinel; it reduces the offset modulo the buffer
size — the query at `samplesAgo + size` returns the same (more recent) sample
as the query at `samplesAgo` — while the physical access always stays in
bounds. -/
theorem getSample_modulo_wraparound (buffer : List ℚ) (writeIndex samplesAgo : Int)
    (hs : 0 < buffer.length) :
    getSample buffer writeIndex (samplesAgo + (buffer.length : Int)) =
      getSample buffer writeIndex samplesAgo ∧
    0 ≤ wrapIndex buffer.length writeIndex (samplesAgo + (buffer.length : Int)) ∧
    wrapIndex buffer.length writeIndex (samplesAgo + (buffer.length : Int)) <
      (buffer.length : Int) := by
  refine ⟨?_, wrapDown_nonneg _ _ (wrapUp_nonneg _ hs _), wrapDown_lt _ hs _⟩
  rw [getSample_eq_emod _ hs, getSample_eq_emod _ hs]
  have he : (writeIndex - 1 - (samplesAgo + (buffer.length : Int))) % (buffer.length : Int) =
      (writeIndex - 1 - samplesAgo) % (buffer.length : Int) := by
    have hx : writeIndex - 1 - (samplesAgo + (buffer.length : Int)) =
        (writeIndex - 1 - samplesAgo) + (-1) * (buffer.length : Int) := by ring
    rw [hx, Int.add_mul_emod_self]
  rw [he]

/-- Witness for the amended C5 at a concrete query: buffer `[1, 2, 3]`,
write index `0`, `samplesAgo = 1` versus `1 + 3`. -/
theorem getSample_modulo_wraparound_witness :
    0 < ([1, 2, 3] : List ℚ).length ∧
    (getSample [1, 2, 3] 0 (1 + (([1, 2, 3] : List ℚ).length : Int)) =
       getSample [1, 2, 3] 0 1 ∧
     0 ≤ wrapIndex ([1, 2, 3] : List ℚ).length 0 (1 + (([1, 2, 3] : List ℚ).length : Int)) ∧
     wrapIndex ([1, 2, 3] : List ℚ).length 0 (1 + (([1, 2, 3] : List ℚ).length : Int)) <
       (([1, 2, 3] : List ℚ).length : Int)) :=
  ⟨by simp, getSample_modulo_wraparound [1, 2, 3] 0 1 (by simp)⟩

/-- Claim C4, counterexample: in the zone entered for `samplesPerPixel < 1`
(`zoomX = 2 >= 1`, so `samplesPerPixel = 1/2`), the renderer does not emit
one vertex per pixel column: over a 10-pixel-wide viewport it emits
`ceil(10/2) + 2 = 7` vertices — one per raw sample — not 10 (or 11). -/
theorem raw_mode_not_one_vertex_per_pixel :
    selectMode 2 = RenderMode.raw ∧ (1 : ℚ) / 2 < 1 ∧
    (zone1Vertices (List.replicate 16 0) 0 10 4 2 1).length = 7 ∧
    (7 : Nat) ≠ 10 ∧ (7 : Nat) ≠ 11 := by
  refine ⟨?_, by norm_num, ?_, by decide, by decide⟩
  · rw [selectMode, if_pos (by norm_num)]
  · simp only [zone1Vertices, List.length_map, List.length_range, List.length_replicate]
    norm_num
    decide

/-- Claim C4 (amended): in raw mode (`zoomX >= 1.0f`, Zone 1 of `paint`) the
renderer emits one vertex per raw sample, `min(ceil(w / zoomX) + 2, size)`
vertices in total; the `i`-th vertex sits at the fractional x-position
`w - i * zoomX` and its y-value is derived directly from the raw sample `i`
samples ago via `getSample` — no interpolation between samples — and the
x-coordinates strictly decrease (right-to-left traversal). -/
theorem zone1_one_vertex_per_sample (hist : List ℚ) (writeIndex : Int)
    (w h zoomX zoomY : ℚ) (hz : 0 < zoomX) :
    (zone1Vertices hist writeIndex w h zoomX zoomY).length =
      min ((⌈w / zoomX⌉).toNat + 2) hist.length ∧
    (∀ i, i < (zone1Vertices hist writeIndex w h zoomX zoomY).length →
      (zone1Vertices hist writeIndex w h zoomX zoomY).getD i (0, 0) =
        (w - (i : ℚ) * zoomX,
         jlimit 0 h (h / 2 - getSample hist writeIndex (i : Int) * (h / 2) * 0.9 * zoomY))) ∧
    (∀ i j, i < j → j < (zone1Vertices hist writeIndex w h zoomX zoomY).length →
      ((zone1Vertices hist writeIndex w h zoomX zoomY).getD j (0, 0)).1 <
        ((zone1Vertices hist writeIndex w h zoomX zoomY).getD i (0, 0)).1) := by
  have hlen : (zone1Vertices hist writeIndex w h zoomX zoomY).length =
      min ((⌈w / zoomX⌉).toNat + 2) hist.length := by
    simp [zone1Vertices]
  have hget : ∀ i, i < (zone1Vertices hist writeIndex w h zoomX zoomY).length →
      (zone1Vertices hist writeIndex w h zoomX zoomY).getD i (0, 0) =
        (w - (i : ℚ) * zoomX,
         jlimit 0 h (h / 2 - getSample hist writeIndex (i : Int) * (h / 2) * 0.9 * zoomY)) := by
    intro i hi
    rw [hlen] at hi
    exact getD_map_range _ _ _ _ hi
  refine ⟨hlen, hget, ?_⟩
  intro i j hij hj
  rw [hget j hj, hget i (lt_trans hij hj)]
  have hmul : (i : ℚ) * zoomX < (j : ℚ) * zoomX :=
    mul_lt_mul_of_pos_right (by exact_mod_cast hij) hz
  simpa using sub_lt_sub_left hmul w

/-- Witness for the amended C4: at `w = 0`, `zoomX = 1` on a two-sample
buffer the vertex list has exactly `min(ceil(0/1) + 2, 2) = 2` entries and
its x-coordinates strictly decrease. -/
theorem zone1_one_vertex_per_sample_witness :
    0 < (1 : ℚ) ∧
    (zone1Vertices [0, 0] 0 0 4 1 1).length = min ((⌈(0 : ℚ) / 1⌉).toNat + 2) 2 ∧
    ((zone1Vertices [0, 0] 0 0 4 1 1).getD 1 (0, 0)).1 <
      ((zone1Vertices [0, 0] 0 0 4 1 1).getD 0 (0, 0)).1 := by
  have hz : 0 < (1 : ℚ) := by norm_num
  have hmain := zone1_one_vertex_per_sample [0, 0] 0 0 4 1 1 hz
  have hlen1 : 1 < (zone1Vertices [0, 0] 0 0 4 1 1).length := by
    rw [hmain.1]
    norm_num
  exact ⟨hz, by simpa using hmain.1, hmain.2.2 0 1 (by decide) hlen1⟩

/-- Claim C10: after draining `n` samples into the history store since
startup, `historyWriteIndex = n mod historySize`,
`overviewWriteIndex = (n / decimationFactor) mod overviewSize`, and
`currentOverviewCounter = n mod decimationFactor`; all three always stay in
their respective ranges. -/
theorem history_indices_formula (inputs : List ℚ) :
    (appendAll historySize overviewSize decimationFactor
        (initState historySize overviewSize) inputs).historyWriteIndex =
      inputs.length % historySize ∧
    (appendAll historySize overviewSize decimationFactor
        (initState historySize overviewSize) inputs).overviewWriteIndex =
      inputs.length / decimationFactor % overviewSize ∧
    (appendAll historySize overviewSize decimationFactor
        (initState historySize overviewSize) inputs).currentOverviewCounter =
      inputs.length % decimationFactor ∧
    (appendAll historySize overviewSize decimationFactor
        (initState historySize overviewSize) inputs).historyWriteIndex < historySize ∧
    (appendAll historySize overviewSize decimationFactor
        (initState historySize overviewSize) inputs).overviewWriteIndex < overviewSize ∧
    (appendAll historySize overviewSize decimationFactor
        (initState historySize overviewSize) inputs).currentOverviewCounter <
      decimationFactor := by
  have hH : 0 < historySize := by decide
  have hO : 0 < overviewSize := by decide
  have hD : 0 < decimationFactor := by decide
  have inv := runInv_holds historySize overviewSize decimationFactor hH hO hD inputs
  refine ⟨inv.histIdx, inv.ovIdx, inv.counter, ?_, ?_, ?_⟩
  · rw [inv.histIdx]
    exact Nat.mod_lt _ hH
  · rw [inv.ovIdx]
    exact Nat.mod_lt _ hO
  · rw [inv.counter]
    exact Nat.mod_lt _ hD

/-- Claim C3: after appending `N > histS` samples with distinct values
`0..N-1`, every retained offset `a < histS` reads back value `N - 1 - a`;
in particular offset `0` reads the last-appended value `N - 1` and offset
`histS - 1` reads value `N - histS`.  Older values are gone (overwritten in
place), and every query is a plain in-bounds read. -/
theorem raw_bounded_retention (histS ovS D N : Nat)
    (hH : 0 < histS) (hO : 0 < ovS) (hD : 0 < D) (hN : histS < N) :
    (∀ a, a < histS →
      getSample (appendAll histS ovS D (initState histS ovS)
          ((List.range N).map (fun (i : Nat) => (i : ℚ)))).historyBuffer
        ((appendAll histS ovS D (initState histS ovS)
          ((List.range N).map (fun (i : Nat) => (i : ℚ)))).historyWriteIndex : Int)
        (a : Int) = ((N - 1 - a : Nat) : ℚ)) ∧
    getSample (appendAll histS ovS D (initState histS ovS)
        ((List.range N).map (fun (i : Nat) => (i : ℚ)))).historyBuffer
      ((appendAll histS ovS D (initState histS ovS)
        ((List.range N).map (fun (i : Nat) => (i : ℚ)))).historyWriteIndex : Int)
      0 = ((N - 1 : Nat) : ℚ) ∧
    getSample (appendAll histS ovS D (initState histS ovS)
        ((List.range N).map (fun (i : Nat) => (i : ℚ)))).historyBuffer
      ((appendAll histS ovS D (initState histS ovS)
        ((List.range N).map (fun (i : Nat) => (i : ℚ)))).historyWriteIndex : Int)
      ((histS : Int) - 1) = ((N - histS : Nat) : ℚ) := by
  have inv := runInv_holds histS ovS D hH hO hD ((List.range N).map (fun (i : Nat) => (i : ℚ)))
  have hlen : ((List.range N).map (fun (i : Nat) => (i : ℚ))).length = N := by simp
  have hblen : (appendAll histS ovS D (initState histS ovS)
      ((List.range N).map (fun (i : Nat) => (i : ℚ)))).historyBuffer.length = histS :=
    inv.histLen
  have hwidx : (appendAll histS ovS D (initState histS ovS)
        ((List.range N).map (fun (i : Nat) => (i : ℚ)))).historyWriteIndex =
      N % (appendAll histS ovS D (initState histS ovS)
        ((List.range N).map (fun (i : Nat) => (i : ℚ)))).historyBuffer.length := by
    rw [hblen, inv.histIdx, hlen]
  have hmain : ∀ a, a < histS →
      getSample (appendAll histS ovS D (initState histS ovS)
          ((List.range N).map (fun (i : Nat) => (i : ℚ)))).historyBuffer
        ((appendAll histS ovS D (initState histS ovS)
          ((List.range N).map (fun (i : Nat) => (i : ℚ)))).historyWriteIndex : Int)
        (a : Int) = ((N - 1 - a : Nat) : ℚ) := by
    intro a ha
    have ha1 : a + 1 ≤ N := by omega
    rw [hwidx, getSample_writeIdx_mod _ (by omega) N a ha1, hblen]
    have hi1 : N - 1 - a < N := by omega
    have hr0 := inv.rawContents (N - 1 - a) (by rw [hlen]; omega) (by rw [hlen]; omega)
    rw [getD_map_range _ _ _ _ hi1] at hr0
    exact hr0
  refine ⟨hmain, ?_, ?_⟩
  · have h0 := hmain 0 hH
    simpa using h0
  · have hhist := hmain (histS - 1) (by omega)
    have hcast : ((histS - 1 : Nat) : Int) = (histS : Int) - 1 := by omega
    rw [hcast] at hhist
    have harith : N - 1 - (histS - 1) = N - histS := by omega
    rw [harith] at hhist
    exact hhist

/-- Witness for C3: raw tier of size 2 (overview size 1, decimation 2), three
samples `0, 1, 2`. -/
theorem raw_bounded_retention_witness :
    (0 < 2 ∧ 2 < 3) ∧
    ((∀ a : Nat, a < 2 →
       getSample (appendAll 2 1 2 (initState 2 1)
           ((List.range 3).map (fun (i : Nat) => (i : ℚ)))).historyBuffer
         ((appendAll 2 1 2 (initState 2 1)
           ((List.range 3).map (fun (i : Nat) => (i : ℚ)))).historyWriteIndex : Int)
         (a : Int) = ((3 - 1 - a : Nat) : ℚ)) ∧
     getSample (appendAll 2 1 2 (initState 2 1)
         ((List.range 3).map (fun (i : Nat) => (i : ℚ)))).historyBuffer
       ((appendAll 2 1 2 (initState 2 1)
         ((List.range 3).map (fun (i : Nat) => (i : ℚ)))).historyWriteIndex : Int)
       0 = ((3 - 1 : Nat) : ℚ) ∧
     getSample (appendAll 2 1 2 (initState 2 1)
         ((List.range 3).map (fun (i : Nat) => (i : ℚ)))).historyBuffer
       ((appendAll 2 1 2 (initState 2 1)
         ((List.range 3).map (fun (i : Nat) => (i : ℚ)))).historyWriteIndex : Int)
       ((2 : Int) - 1) = ((3 - 2 : Nat) : ℚ)) :=
  ⟨⟨by decide, by decide⟩,
   raw_bounded_retention 2 1 2 3 (by decide) (by decide) (by decide) (by decide)⟩

/-- Claim C2: for samples in `[0, 1]`, as long as the overview tier has not
wrapped, the `k`-th committed overview entry is exactly the `(min, max)` of
raw samples `k*D .. (k+1)*D - 1` in arrival order (its `min` and `max` are
attained in that window and bound every sample of it); commits happen
exactly every `D` appended samples — `overviewWriteIndex = (n / D) mod ovS`
and the counter holds `n mod D` — independent of raw-tier wraparound, and a
partial window is never committed (entries past `n / D` still hold their
initial value). -/
theorem overview_decimation_correct (histS ovS D : Nat)
    (hH : 0 < histS) (hO : 0 < ovS) (hD : 0 < D)
    (inputs : List ℚ) (hin : ∀ x ∈ inputs, 0 ≤ x ∧ x ≤ 1)
    (hq : inputs.length / D ≤ ovS) (k : Nat) (hk : (k + 1) * D ≤ inputs.length) :
    ((appendAll histS ovS D (initState histS ovS) inputs).overviewBuffer.getD k ⟨0, 0⟩).min ∈
      (inputs.drop (D * k)).take D ∧
    ((appendAll histS ovS D (initState histS ovS) inputs).overviewBuffer.getD k ⟨0, 0⟩).max ∈
      (inputs.drop (D * k)).take D ∧
    (∀ x ∈ (inputs.drop (D * k)).take D,
      ((appendAll histS ovS D (initState histS ovS) inputs).overviewBuffer.getD k
        ⟨0, 0⟩).min ≤ x ∧
      x ≤ ((appendAll histS ovS D (initState histS ovS) inputs).overviewBuffer.getD k
        ⟨0, 0⟩).max) ∧
    (appendAll histS ovS D (initState histS ovS) inputs).overviewWriteIndex =
      inputs.length / D % ovS ∧
    (appendAll histS ovS D (initState histS ovS) inputs).currentOverviewCounter =
      inputs.length % D ∧
    (∀ j, inputs.length / D ≤ j → j < ovS →
      (appendAll histS ovS D (initState histS ovS) inputs).overviewBuffer.getD j ⟨0, 0⟩ =
        ⟨0, 0⟩) := by
  have inv := runInv_holds histS ovS D hH hO hD inputs
  have hkq : k < inputs.length / D := by
    have := (Nat.le_div_iff_mul_le hD).mpr hk
    omega
  have hent := inv.committed k hkq hq
  have hk' : D * k + D ≤ inputs.length := by
    have h2 : (k + 1) * D = D * k + D := by ring
    omega
  have hwlen : ((inputs.drop (D * k)).take D).length = D := by
    rw [List.length_take, List.length_drop]
    omega
  have hwne : (inputs.drop (D * k)).take D ≠ [] := by
    intro hnil
    rw [hnil] at hwlen
    simp at hwlen
    omega
  have hwsub : ∀ x ∈ (inputs.drop (D * k)).take D, 0 ≤ x ∧ x ≤ 1 := by
    intro x hx
    exact hin x (List.drop_subset _ _ (List.take_subset _ _ hx))
  have hminmem : accMin 10 ((inputs.drop (D * k)).take D) ∈ (inputs.drop (D * k)).take D := by
    rcases accMin_eq_seed_or_mem 10 ((inputs.drop (D * k)).take D) with heq | hmem
    · exfalso
      obtain ⟨y, hy⟩ := List.exists_mem_of_ne_nil _ hwne
      have h1 : accMin 10 ((inputs.drop (D * k)).take D) ≤ y := accMin_le_mem 10 y _ hy
      have h2 := (hwsub y hy).2
      rw [heq] at h1
      linarith
    · exact hmem
  have hmaxmem : accMax 0 ((inputs.drop (D * k)).take D) ∈ (inputs.drop (D * k)).take D := by
    rcases accMax_eq_seed_or_mem 0 ((inputs.drop (D * k)).take D) with heq | hmem
    · obtain ⟨y, hy⟩ := List.exists_mem_of_ne_nil _ hwne
      have h1 : y ≤ accMax 0 ((inputs.drop (D * k)).take D) := le_accMax_mem 0 y _ hy
      have h2 := (hwsub y hy).1
      have hy0 : y = accMax 0 ((inputs.drop (D * k)).take D) := by
        rw [heq] at h1 ⊢
        linarith
      rw [← hy0]
      exact hy
    · exact hmem
  refine ⟨?_, ?_, ?_, inv.ovIdx, inv.counter, fun j hj hjlt => inv.uncommitted j hj hjlt⟩
  · rw [hent]
    exact hminmem
  · rw [hent]
    exact hmaxmem
  · intro x hx
    rw [hent]
    exact ⟨accMin_le_mem 10 x _ hx, le_accMax_mem 0 x _ hx⟩

/-- Witness for C2: raw tier of size 4, overview of size 2, decimation 2,
four samples in `[0, 1]`, checking committed entry `k = 0`. -/
theorem overview_decimation_correct_witness :
    (0 < 4 ∧ 0 < 2 ∧ 0 < 2 ∧
      ([1/2, 1/4, 3/4, 1] : List ℚ).length / 2 ≤ 2 ∧
      (0 + 1) * 2 ≤ ([1/2, 1/4, 3/4, 1] : List ℚ).length) ∧
    (((appendAll 4 2 2 (initState 4 2) [1/2, 1/4, 3/4, 1]).overviewBuffer.getD 0 ⟨0, 0⟩).min ∈
       (([1/2, 1/4, 3/4, 1] : List ℚ).drop (2 * 0)).take 2 ∧
     ((appendAll 4 2 2 (initState 4 2) [1/2, 1/4, 3/4, 1]).overviewBuffer.getD 0 ⟨0, 0⟩).max ∈
       (([1/2, 1/4, 3/4, 1] : List ℚ).drop (2 * 0)).take 2 ∧
     (∀ x ∈ (([1/2, 1/4, 3/4, 1] : List ℚ).drop (2 * 0)).take 2,
       ((appendAll 4 2 2 (initState 4 2) [1/2, 1/4, 3/4, 1]).overviewBuffer.getD 0
         ⟨0, 0⟩).min ≤ x ∧
       x ≤ ((appendAll 4 2 2 (initState 4 2) [1/2, 1/4, 3/4, 1]).overviewBuffer.getD 0
         ⟨0, 0⟩).max) ∧
     (appendAll 4 2 2 (initState 4 2) [1/2, 1/4, 3/4, 1]).overviewWriteIndex =
       ([1/2, 1/4, 3/4, 1] : List ℚ).length / 2 % 2 ∧
     (appendAll 4 2 2 (initState 4 2) [1/2, 1/4, 3/4, 1]).currentOverviewCounter =
       ([1/2, 1/4, 3/4, 1] : List ℚ).length % 2 ∧
     (∀ j, ([1/2, 1/4, 3/4, 1] : List ℚ).length / 2 ≤ j → j < 2 →
       (appendAll 4 2 2 (initState 4 2) [1/2, 1/4, 3/4, 1]).overviewBuffer.getD j ⟨0, 0⟩ =
         ⟨0, 0⟩)) :=
  ⟨⟨by decide, by decide, by decide, by simp, by simp⟩,
   overview_decimation_correct 4 2 2 (by decide) (by decide) (by decide)
     [1/2, 1/4, 3/4, 1]
     (by
       intro x hx
       fin_cases hx <;> norm_num)
     (by simp) 0 (by simp)⟩

/-- Claim C7: a timer tick drains the level queue completely — it pops
exactly the pending entries in FIFO order (stopping when
`readIndex == writeIndex`, the empty condition), appends them to the history
store in arrival order, leaves the write index untouched, and requests a
redraw iff at least one sample was drained. -/
theorem timer_drains_fifo (fifoSize histSize ovSize D : Nat)
    (f : FifoState) (st : HistoryState)
    (hf : 0 < fifoSize) (hr : f.fifoReadIndex < fifoSize) (hw : f.fifoWriteIndex < fifoSize) :
    (timerCallback fifoSize histSize ovSize D f st).1 =
      { f with fifoReadIndex := f.fifoWriteIndex } ∧
    (timerCallback fifoSize histSize ovSize D f st).2.1 =
      appendAll histSize ovSize D st (queueContents fifoSize f) ∧
    drainN fifoSize histSize ovSize D fifoSize f st =
      ({ f with fifoReadIndex := f.fifoWriteIndex },
       appendAll histSize ovSize D st (queueContents fifoSize f),
       queueContents fifoSize f) ∧
    ((timerCallback fifoSize histSize ovSize D f st).2.2 = true ↔
      f.fifoReadIndex ≠ f.fifoWriteIndex) := by
  have hd := drainN_spec fifoSize histSize ovSize D hf fifoSize f st hr hw
    (le_of_lt (pendingCount_lt fifoSize _ _ hr hw))
  refine ⟨?_, ?_, hd, ?_⟩
  · rw [timerCallback]
    simp only [hd]
  · rw [timerCallback]
    simp only [hd]
  · have hqc : (queueContents fifoSize f).isEmpty = true ↔
        f.fifoReadIndex = f.fifoWriteIndex := by
      rw [List.isEmpty_iff]
      unfold queueContents
      rw [List.map_eq_nil_iff, List.range_eq_nil]
      exact pendingCount_eq_zero_iff fifoSize _ _ hr hw
    rw [timerCallback]
    simp only [hd]
    constructor
    · intro hb he
      have h1 : (queueContents fifoSize f).isEmpty = true := hqc.mpr he
      rw [h1] at hb
      simp at hb
    · intro hne
      have h1 : (queueContents fifoSize f).isEmpty = false := by
        cases hcase : (queueContents fifoSize f).isEmpty
        · rfl
        · exact absurd (hqc.mp hcase) hne
      rw [h1]
      rfl

/-- Witness for C7: a four-slot queue holding two pending samples across the
wraparound point (`read = 3`, `write = 1`). -/
theorem timer_drains_fifo_witness :
    (0 < 4 ∧ 3 < 4 ∧ 1 < 4) ∧
    ((timerCallback 4 8 4 2 ⟨[1, 2, 3, 4], 3, 1⟩ (initState 8 4)).1 =
      { (⟨[1, 2, 3, 4], 3, 1⟩ : FifoState) with fifoReadIndex := 1 } ∧
     (timerCallback 4 8 4 2 ⟨[1, 2, 3, 4], 3, 1⟩ (initState 8 4)).2.1 =
      appendAll 8 4 2 (initState 8 4) (queueContents 4 ⟨[1, 2, 3, 4], 3, 1⟩) ∧
     drainN 4 8 4 2 4 ⟨[1, 2, 3, 4], 3, 1⟩ (initState 8 4) =
      ({ (⟨[1, 2, 3, 4], 3, 1⟩ : FifoState) with fifoReadIndex := 1 },
       appendAll 8 4 2 (initState 8 4) (queueContents 4 ⟨[1, 2, 3, 4], 3, 1⟩),
       queueContents 4 ⟨[1, 2, 3, 4], 3, 1⟩) ∧
     ((timerCallback 4 8 4 2 ⟨[1, 2, 3, 4], 3, 1⟩ (initState 8 4)).2.2 = true ↔
       (3 : Nat) ≠ 1)) :=
  ⟨⟨by decide, by decide, by decide⟩,
   timer_drains_fifo 4 8 4 2 ⟨[1, 2, 3, 4], 3, 1⟩ (initState 8 4)
     (by decide) (by decide) (by decide)⟩

end SmoothScope
